import Mathlib

/-!
Shallow embedding of `blackjack.go` (package main of dev-amos/go-blackjack):
a one-round Blackjack simulation.  Go slices become `List`, the Go `int`
becomes `Int`, `panic` becomes `Except.error`, and the two interactive
loops of `PlayBlackjack` become recursive functions over an explicit
deck and an explicit list of input tokens.  The time-seeded RNG used by
`Shuffle` is passed in as a function `Nat → Nat`; `rng.Intn (i+1)` is
modelled as `rng i % (i+1)`, which is exactly the contract `Intn`
guarantees (a value in `[0, i+1)`), quantified over every possible
random sequence.
-/

namespace GoBlackjack

/-- Go `type Suit uint8` with the four constants Spades..Clubs. -/
inductive Suit where
  | spades | hearts | diamonds | clubs
deriving DecidableEq, Repr

/-- Go `type Rank uint8` with the constants `Ace Rank = iota + 1` .. `King`. -/
inductive Rank where
  | ace | two | three | four | five | six | seven
  | eight | nine | ten | jack | queen | king
deriving DecidableEq, Repr

/-- The numeric value of the Go `Rank` constant (`Ace = 1`, ..., `King = 13`);
`int(card.Rank)` in the source. -/
def Rank.toInt : Rank → Int
  | .ace => 1 | .two => 2 | .three => 3 | .four => 4 | .five => 5
  | .six => 6 | .seven => 7 | .eight => 8 | .nine => 9 | .ten => 10
  | .jack => 11 | .queen => 12 | .king => 13

/-- Go `type Card struct` holding a suit and a rank. -/
structure Card where
  suit : Suit
  rank : Rank
deriving DecidableEq, Repr

/-- Go `type Deck struct` holding an ordered card sequence. -/
structure Deck where
  cards : List Card
deriving DecidableEq, Repr

/-- The inner `for r := Ace; r <= King; r++` loop of `NewDeck`,
in the ascending order of the Go constants. -/
def allRanks : List Rank :=
  [.ace, .two, .three, .four, .five, .six, .seven,
   .eight, .nine, .ten, .jack, .queen, .king]

/-- The outer `for s := Spades; s <= Clubs; s++` loop of `NewDeck`. -/
def allSuits : List Suit :=
  [.spades, .hearts, .diamonds, .clubs]

/-- Source `func NewDeck`: appends one card per (suit, rank) pair,
suit-major, rank ascending within suit. -/
def NewDeck : Deck :=
  ⟨allSuits.flatMap fun s => allRanks.map fun r => { suit := s, rank := r }⟩

/-- The simultaneous assignment
`d.cards[i], d.cards[j] = d.cards[j], d.cards[i]` of `Shuffle`.
Out-of-range indices leave the list unchanged (they never occur in
`Shuffle`, whose indices are always in range). -/
def swapCards (l : List Card) (i j : Nat) : List Card :=
  match l[i]?, l[j]? with
  | some a, some b => (l.set i b).set j a
  | _, _ => l

/-- The `for i := n - 1; i > 0; i--` loop of `Shuffle`:
`shuffleLoop cards rng i` runs the iterations for indices `i, i-1, ..., 1`,
swapping position `i` with position `rng.Intn(i+1)`. -/
def shuffleLoop (cards : List Card) (rng : Nat → Nat) : Nat → List Card
  | 0 => cards
  | i + 1 => shuffleLoop (swapCards cards (i + 1) (rng (i + 1) % (i + 2))) rng i

/-- Source `Shuffle` method: Fisher-Yates from index `n-1` down to `1`,
with the RNG supplied as an explicit sequence. -/
def Deck.Shuffle (d : Deck) (rng : Nat → Nat) : Deck :=
  ⟨shuffleLoop d.cards rng (d.cards.length - 1)⟩

/-- Source `DrawCard` method: the empty-deck panic becomes the error value;
otherwise it removes and returns the first card. -/
def Deck.DrawCard (d : Deck) : Except String (Card × Deck) :=
  match d.cards with
  | [] => .error "Deck is empty"
  | card :: rest => .ok (card, ⟨rest⟩)

/-- Go `type BlackjackHand struct`: held cards plus the soft-Ace flag. -/
structure BlackjackHand where
  cards : List Card
  soft : Bool
deriving DecidableEq, Repr

/-- The body of the `for _, card := range h.cards` loop of `Value`:
one `switch card.Rank` step updating the running total. -/
def valueStep (soft : Bool) (value : Int) (card : Card) : Int :=
  match card.rank with
  | .ace => if soft ∧ value + 11 ≤ 21 then value + 11 else value + 1
  | .jack => value + 10
  | .queen => value + 10
  | .king => value + 10
  | r => value + r.toInt

/-- Source `Value` method: folds `valueStep` over the held cards starting
from zero. -/
def BlackjackHand.Value (h : BlackjackHand) : Int :=
  h.cards.foldl (valueStep h.soft) 0

/-- Source `AddCard` method: appends the card, then sets `soft` when the
added card is an Ace and the value of the extended hand — still evaluated
under the old `soft` flag — is at most 10. -/
def BlackjackHand.AddCard (h : BlackjackHand) (card : Card) : BlackjackHand :=
  if card.rank = .ace ∧ (BlackjackHand.mk (h.cards ++ [card]) h.soft).Value ≤ 10
  then ⟨h.cards ++ [card], true⟩
  else ⟨h.cards ++ [card], h.soft⟩

/-- The player loop of `PlayBlackjack`: each iteration reads one token;
`"h"` draws a card (ending the loop when the new value exceeds 21),
`"s"` ends the loop, anything else re-prompts.  Running out of tokens
models a read that never yields a token (the Go loop would still be
waiting); a draw from an empty deck models the Go panic; both are `none`. -/
def playerLoop (h : BlackjackHand) (d : Deck) (actions : List String) :
    Option (BlackjackHand × Deck) :=
  match actions with
  | [] => none
  | action :: rest =>
    if action = "h" then
      match d.DrawCard with
      | .error _ => none
      | .ok (c, d') =>
        let h' := h.AddCard c
        if h'.Value > 21 then some (h', d') else playerLoop h' d' rest
    else if action = "s" then some (h, d)
    else playerLoop h d rest

/-- The dealer loop of `PlayBlackjack`:
`for dealer.Value() < 17 { dealer.AddCard(deck.DrawCard()); if > 21 break }`.
A draw from an empty deck models the Go panic as `none`. -/
def dealerLoop (h : BlackjackHand) (d : Deck) : Option (BlackjackHand × Deck) :=
  if h.Value < 17 then
    match d with
    | ⟨[]⟩ => none
    | ⟨c :: rest⟩ =>
      let h' := h.AddCard c
      if h'.Value > 21 then some (h', ⟨rest⟩) else dealerLoop h' ⟨rest⟩
  else some (h, d)
termination_by d.cards.length
decreasing_by simp

/-- The winner-determination block of `PlayBlackjack`, returning the string
it prints; the three branches are tested in source order. -/
def resolveOutcome (p d : Int) : String :=
  if p > 21 ∨ (d ≤ 21 ∧ d > p) then "Dealer wins!"
  else if d > 21 ∨ (p ≤ 21 ∧ p > d) then "Player wins!"
  else "Push!"

/-- The initial deal of `PlayBlackjack`: two cards to the player, then two
to the dealer, each via `DrawCard`. -/
def dealInitial (d : Deck) : Option (BlackjackHand × BlackjackHand × Deck) :=
  match d.DrawCard with
  | .error _ => none
  | .ok (c1, d1) =>
    match d1.DrawCard with
    | .error _ => none
    | .ok (c2, d2) =>
      match d2.DrawCard with
      | .error _ => none
      | .ok (c3, d3) =>
        match d3.DrawCard with
        | .error _ => none
        | .ok (c4, d4) =>
          let player := (BlackjackHand.AddCard ⟨[], false⟩ c1).AddCard c2
          let dealer := (BlackjackHand.AddCard ⟨[], false⟩ c3).AddCard c4
          some (player, dealer, d4)

/-- The part of `PlayBlackjack` after the initial deal: the player loop,
then — unconditionally — the dealer loop, then the outcome. -/
def runRound (player dealer : BlackjackHand) (d : Deck)
    (actions : List String) : Option String :=
  (playerLoop player d actions).bind fun pr =>
    (dealerLoop dealer pr.2).map fun dr =>
      resolveOutcome pr.1.Value dr.1.Value

/-- Source `PlayBlackjack`: its Go signature takes a deck, but the body
shadows that parameter with a fresh `NewDeck()` and shuffles it, so the
model takes only the RNG sequence and the player's input tokens. -/
def PlayBlackjack (rng : Nat → Nat) (actions : List String) : Option String :=
  let deck := NewDeck.Shuffle rng
  (dealInitial deck).bind fun r => runRound r.1 r.2.1 r.2.2 actions

/-- Points one card contributes according to the spec's wording of
`value()` (section 4.2): Jack/Queen/King contribute 10; Ace contributes 11
if `soft` is true and adding 11 would not push the running total past 21,
else 1; numeric ranks contribute their face number.  This definition
follows the spec's words and exists only to be compared with
`BlackjackHand.Value`, which is translated from the source. -/
def specCardPoints (soft : Bool) (running : Int) (c : Card) : Int :=
  if c.rank = .jack ∨ c.rank = .queen ∨ c.rank = .king then 10
  else if c.rank = .ace then (if soft ∧ running + 11 ≤ 21 then 11 else 1)
  else c.rank.toInt

/-- Running-total iteration over the held cards, per the spec's wording of
`value()`; companion of `specCardPoints`. -/
def ValueSpec (soft : Bool) : Int → List Card → Int
  | running, [] => running
  | running, c :: rest => ValueSpec soft (running + specCardPoints soft running c) rest

/-- Points a card is worth when every Ace counts as 1 (the "hard" value of
a card); measuring stick for the at-most-one-soft-Ace invariant. -/
def cardHard (c : Card) : Int :=
  match c.rank with
  | .ace => 1
  | .jack => 10
  | .queen => 10
  | .king => 10
  | r => r.toInt

/-- The every-Ace-as-1 total of a list of cards. -/
def hardTotal : List Card → Int
  | [] => 0
  | c :: rest => cardHard c + hardTotal rest

/-! Helper lemmas shared by the claim theorems. -/

/-- With `soft = false` the fold of `Value` is the plain hard sum. -/
theorem foldl_valueStep_false (cards : List Card) (acc : Int) :
    cards.foldl (valueStep false) acc = acc + hardTotal cards := by
  induction cards generalizing acc with
  | nil => simp [hardTotal]
  | cons c rest ih =>
    rw [List.foldl_cons, ih]
    have : valueStep false acc c = acc + cardHard c := by
      cases hr : c.rank <;> simp [valueStep, cardHard, hr]
    rw [this, hardTotal]
    ring

/-- Every card contributes at least 1 in one step of `Value`'s fold. -/
theorem valueStep_ge (soft : Bool) (acc : Int) (c : Card) :
    acc + 1 ≤ valueStep soft acc c := by
  cases hr : c.rank <;> simp [valueStep, hr, Rank.toInt] <;> split_ifs <;> omega

/-- Bound for `Value`'s fold: starting from a nonnegative running total,
the result exceeds the hard total by more than the start only through a
single Ace counted as 11, hence by at most 10 — and not even that once the
running total no longer admits an 11. -/
theorem foldl_valueStep_le (cards : List Card) (soft : Bool) (acc : Int)
    (hacc : 0 ≤ acc) :
    cards.foldl (valueStep soft) acc
      ≤ acc + hardTotal cards + (if acc + 11 ≤ 21 then 10 else 0) := by
  induction cards generalizing acc with
  | nil => simp [hardTotal]; split_ifs <;> omega
  | cons c rest ih =>
    rw [List.foldl_cons, hardTotal]
    have hstep := valueStep_ge soft acc c
    have hih := ih (valueStep soft acc c) (by omega)
    have hbound : valueStep soft acc c
        + (if valueStep soft acc c + 11 ≤ 21 then (10 : Int) else 0)
        ≤ acc + cardHard c + (if acc + 11 ≤ 21 then 10 else 0) := by
      cases hr : c.rank <;>
        simp [valueStep, cardHard, hr, Rank.toInt] <;> split_ifs <;> omega
    omega

/-- Appending is unconditional in `AddCard`, whatever the flag decision. -/
theorem addCard_cards (h : BlackjackHand) (c : Card) :
    (h.AddCard c).cards = h.cards ++ [c] := by
  unfold BlackjackHand.AddCard
  split <;> rfl

/-- CLAIM C1: `AddCard c` appends `c` to the end of the hand, and the
resulting soft flag is: old soft, OR (`c` is an Ace AND the value of the
extended hand evaluated under the old soft flag — i.e. before considering
the added card's own softness — is at most 10).  In particular a true
soft flag is never reset by a later `AddCard`. -/
theorem addCard_spec (h : BlackjackHand) (c : Card) :
    (h.AddCard c).cards = h.cards ++ [c] ∧
    ((h.AddCard c).soft = true ↔
      (h.soft = true ∨
        (c.rank = .ace ∧
          (BlackjackHand.mk (h.cards ++ [c]) h.soft).Value ≤ 10))) ∧
    (h.soft = true → (h.AddCard c).soft = true) := by
  refine ⟨addCard_cards h c, ?_, ?_⟩ <;> unfold BlackjackHand.AddCard
  · split_ifs with hcond
    · simpa using Or.inr hcond
    · rw [not_and_or] at hcond
      constructor
      · exact fun hs => Or.inl hs
      · rintro (hs | ⟨hace, hval⟩)
        · exact hs
        · rcases hcond with hc | hc
          · exact absurd hace hc
          · exact absurd hval hc
  · split_ifs <;> simp_all

/-- CLAIM C1 witness: a concrete instance — adding a King to an already
soft hand `[Ace]` keeps the append/flag characterization and the flag. -/
theorem addCard_spec_witness :
    ((BlackjackHand.mk [⟨.spades, .ace⟩] true).AddCard ⟨.hearts, .king⟩).cards
        = [⟨.spades, .ace⟩] ++ [⟨.hearts, .king⟩] ∧
    (((BlackjackHand.mk [⟨.spades, .ace⟩] true).AddCard ⟨.hearts, .king⟩).soft = true ↔
      ((true : Bool) = true ∨
        (Card.rank ⟨.hearts, .king⟩ = .ace ∧
          (BlackjackHand.mk ([⟨.spades, .ace⟩] ++ [⟨.hearts, .king⟩]) true).Value ≤ 10))) ∧
    ((true : Bool) = true →
      ((BlackjackHand.mk [⟨.spades, .ace⟩] true).AddCard ⟨.hearts, .king⟩).soft = true) :=
  addCard_spec ⟨[⟨.spades, .ace⟩], true⟩ ⟨.hearts, .king⟩

/-- CLAIM C2: `Value` computes exactly the total described by the spec's
running-total iteration (`ValueSpec`): J/Q/K are 10, Two..Ten their face
number, an Ace is 11 exactly when `soft` holds and 11 still fits under 21,
else 1.  (`Value` is a pure function of the hand state in this embedding,
so it cannot mutate the hand.) -/
theorem value_refines_spec (h : BlackjackHand) :
    h.Value = ValueSpec h.soft 0 h.cards := by
  have general : ∀ (cards : List Card) (soft : Bool) (acc : Int),
      cards.foldl (valueStep soft) acc = ValueSpec soft acc cards := by
    intro cards soft
    induction cards with
    | nil => intro acc; rfl
    | cons c rest ih =>
      intro acc
      rw [List.foldl_cons, ValueSpec, ← ih]
      have : valueStep soft acc c = acc + specCardPoints soft acc c := by
        cases hr : c.rank <;>
          simp [valueStep, specCardPoints, hr, Rank.toInt] <;> split_ifs <;> omega
      rw [this]
  exact general h.cards h.soft 0

/-- CLAIM C3: the three spec example hands, built through `AddCard` from
the empty hand in the stated order, all evaluate to 21, for any suits. -/
theorem example_hands :
    (∀ s1 s2 : Suit,
      (((⟨[], false⟩ : BlackjackHand).AddCard ⟨s1, .ace⟩).AddCard
        ⟨s2, .king⟩).Value = 21) ∧
    (∀ s1 s2 s3 : Suit,
      ((((⟨[], false⟩ : BlackjackHand).AddCard ⟨s1, .king⟩).AddCard
        ⟨s2, .queen⟩).AddCard ⟨s3, .ace⟩).Value = 21) ∧
    (∀ s1 s2 s3 : Suit,
      ((((⟨[], false⟩ : BlackjackHand).AddCard ⟨s1, .ace⟩).AddCard
        ⟨s2, .ace⟩).AddCard ⟨s3, .nine⟩).Value = 21) := by
  refine ⟨?_, ?_, ?_⟩
  · intro s1 s2; cases s1 <;> cases s2 <;> decide
  · intro s1 s2 s3; cases s1 <;> cases s2 <;> cases s3 <;> decide
  · intro s1 s2 s3; cases s1 <;> cases s2 <;> cases s3 <;> decide

/-- CLAIM C9: `Value` counts at most one Ace as 11: it never exceeds the
every-Ace-as-1 total of the held cards by more than 10. -/
theorem value_le_hard_add_ten (h : BlackjackHand) :
    h.Value ≤ hardTotal h.cards + 10 := by
  have := foldl_valueStep_le h.cards h.soft 0 le_rfl
  unfold BlackjackHand.Value
  split_ifs at this <;> omega

/-- CLAIM C10: `AddCard` runs its soft-eligibility check after appending,
with the just-added Ace counted as 1: adding an Ace to a hard hand of
value exactly 10 leaves `soft` false and yields value 11, not 21. -/
theorem ace_on_ten_stays_hard (h : BlackjackHand) (s : Suit)
    (hsoft : h.soft = false) (hval : h.Value = 10) :
    (h.AddCard ⟨s, .ace⟩).soft = false ∧ (h.AddCard ⟨s, .ace⟩).Value = 11 := by
  have hhard : hardTotal h.cards = 10 := by
    have := foldl_valueStep_false h.cards 0
    unfold BlackjackHand.Value at hval
    rw [hsoft] at hval
    omega
  have hextended :
      (BlackjackHand.mk (h.cards ++ [⟨s, .ace⟩]) h.soft).Value = 11 := by
    unfold BlackjackHand.Value
    rw [hsoft]
    simp only [List.foldl_append, foldl_valueStep_false]
    simp [hardTotal, cardHard, hhard]
  have hadd : h.AddCard ⟨s, .ace⟩ = ⟨h.cards ++ [⟨s, .ace⟩], h.soft⟩ := by
    unfold BlackjackHand.AddCard
    split_ifs with hcond
    · exfalso
      have := hcond.2
      rw [hextended] at this
      omega
    · rfl
  rw [hadd, hextended]
  exact ⟨hsoft, rfl⟩

/-- CLAIM C10 witness: a hand holding only a Ten (value 10, hard); adding
an Ace keeps it hard and makes the value 11. -/
theorem ace_on_ten_stays_hard_witness :
    ((BlackjackHand.mk [⟨.clubs, .ten⟩] false).AddCard ⟨.spades, .ace⟩).soft = false ∧
    ((BlackjackHand.mk [⟨.clubs, .ten⟩] false).AddCard ⟨.spades, .ace⟩).Value = 11 :=
  ace_on_ten_stays_hard ⟨[⟨.clubs, .ten⟩], false⟩ .spades rfl (by decide)

/-- CLAIM C4: the outcome is a function of the final player value `p` and
dealer value `d` alone, decided by first-match clause order: dealer wins
iff `p > 21` or (`d ≤ 21` and `d > p`); otherwise player wins iff `d > 21`
or (`p ≤ 21` and `p > d`); otherwise push.  When both sides bust the
player-bust clause fires first and the dealer wins. -/
theorem resolveOutcome_spec (p d : Int) :
    (resolveOutcome p d = "Dealer wins!" ↔ p > 21 ∨ (d ≤ 21 ∧ d > p)) ∧
    (resolveOutcome p d = "Player wins!" ↔
      ¬(p > 21 ∨ (d ≤ 21 ∧ d > p)) ∧ (d > 21 ∨ (p ≤ 21 ∧ p > d))) ∧
    (resolveOutcome p d = "Push!" ↔
      ¬(p > 21 ∨ (d ≤ 21 ∧ d > p)) ∧ ¬(d > 21 ∨ (p ≤ 21 ∧ p > d))) ∧
    (p > 21 → d > 21 → resolveOutcome p d = "Dealer wins!") := by
  unfold resolveOutcome
  refine ⟨?_, ?_, ?_, ?_⟩ <;> split_ifs <;> simp_all

/-- CLAIM C4 witness: the spec's both-bust example, player 23 dealer 24,
resolved by the first clause for the dealer. -/
theorem resolveOutcome_spec_witness :
    resolveOutcome 23 24 = "Dealer wins!" :=
  (resolveOutcome_spec 23 24).2.2.2 (by decide) (by decide)

/-- CLAIM C6: a player-turn input token other than `"h"` and `"s"` is
rejected and re-prompted: the iteration consuming it leaves the player
hand and the deck (and a fortiori the dealer hand, untouched by this
loop) exactly as they were — the loop's result is the result of running
the remaining tokens from the unchanged state. -/
theorem playerLoop_invalid (h : BlackjackHand) (d : Deck) (a : String)
    (rest : List String) (hh : a ≠ "h") (hs : a ≠ "s") :
    playerLoop h d (a :: rest) = playerLoop h d rest := by
  rw [playerLoop]
  simp [hh, hs]

/-- CLAIM C6 witness: the spec's token `"x"` is skipped, concretely. -/
theorem playerLoop_invalid_witness :
    playerLoop ⟨[⟨.spades, .ten⟩], false⟩ ⟨[]⟩ ["x", "s"]
      = playerLoop ⟨[⟨.spades, .ten⟩], false⟩ ⟨[]⟩ ["s"] :=
  playerLoop_invalid ⟨[⟨.spades, .ten⟩], false⟩ ⟨[]⟩ "x" ["s"]
    (by decide) (by decide)

/-- CLAIM C7: `DrawCard` on a non-empty deck removes and returns the first
card, leaving the rest in order (so the size drops by exactly one), and on
an empty deck fails with the fatal empty-deck error without returning a
card. -/
theorem drawCard_spec :
    (∀ (d : Deck) (c : Card) (d' : Deck),
      d.DrawCard = .ok (c, d') →
        d.cards = c :: d'.cards ∧ d'.cards.length + 1 = d.cards.length) ∧
    (∀ d : Deck, d.cards = [] → d.DrawCard = .error "Deck is empty") := by
  constructor
  · intro d c d' hok
    obtain ⟨l⟩ := d
    cases l with
    | nil => exact absurd hok (by simp [Deck.DrawCard])
    | cons x rest =>
      simp only [Deck.DrawCard, Except.ok.injEq, Prod.mk.injEq] at hok
      obtain ⟨rfl, rfl⟩ := hok
      exact ⟨rfl, by simp⟩
  · intro d hnil
    obtain ⟨l⟩ := d
    cases hnil
    rfl

/-- CLAIM C7 witness: drawing from a concrete two-card deck returns its
first card and the singleton remainder; the empty deck errors. -/
theorem drawCard_spec_witness :
    ((⟨[⟨.spades, .ace⟩, ⟨.hearts, .two⟩]⟩ : Deck).cards
        = ⟨.spades, .ace⟩ :: (⟨[⟨.hearts, .two⟩]⟩ : Deck).cards ∧
      (⟨[⟨.hearts, .two⟩]⟩ : Deck).cards.length + 1
        = (⟨[⟨.spades, .ace⟩, ⟨.hearts, .two⟩]⟩ : Deck).cards.length) ∧
    (⟨[]⟩ : Deck).DrawCard = .error "Deck is empty" :=
  ⟨drawCard_spec.1 ⟨[⟨.spades, .ace⟩, ⟨.hearts, .two⟩]⟩ ⟨.spades, .ace⟩
      ⟨[⟨.hearts, .two⟩]⟩ rfl,
    drawCard_spec.2 ⟨[]⟩ rfl⟩

/-- A `DrawCard` that succeeds took its card off the front of the deck. -/
theorem drawCard_ok_cases (d : Deck) (c : Card) (d' : Deck)
    (hok : d.DrawCard = .ok (c, d')) : d.cards = c :: d'.cards := by
  obtain ⟨l⟩ := d
  cases l with
  | nil => exact absurd hok (by simp [Deck.DrawCard])
  | cons x rest =>
    simp only [Deck.DrawCard, Except.ok.injEq, Prod.mk.injEq] at hok
    obtain ⟨rfl, rfl⟩ := hok
    rfl

/-- Writing `l[j]` into slot `i` and `l[i]` into slot `j` permutes `l`. -/
theorem swapSet_perm (l : List Card) (i j : Nat) (a b : Card)
    (hi : l[i]? = some a) (hj : l[j]? = some b) :
    ((l.set i b).set j a).Perm l := by
  obtain ⟨hilen, hia⟩ := List.getElem?_eq_some.mp hi
  obtain ⟨hjlen, hjb⟩ := List.getElem?_eq_some.mp hj
  have hjlen' : j < (l.set i b).length := by simpa using hjlen
  have hmema : a ∈ l := hia ▸ List.getElem_mem hilen
  have hmemb : b ∈ l := hjb ▸ List.getElem_mem hjlen
  rw [List.perm_iff_count]
  intro c
  rw [List.count_set a c (l.set i b) j hjlen', List.count_set b c l i hilen]
  have hgb : (l.set i b)[j] = b := by
    rw [List.getElem_set]
    split
    · rfl
    · exact hjb
  rw [hgb, hia]
  by_cases hac : a = c <;> by_cases hbc : b = c
  · have h1 : 1 ≤ List.count c l := List.count_pos_iff.mpr (hac ▸ hmema)
    subst hac
    subst hbc
    simp only [beq_self_eq_true, if_true]
    omega
  · have h1 : 1 ≤ List.count c l := List.count_pos_iff.mpr (hac ▸ hmema)
    simp [hac, hbc]
    omega
  · simp [hac, hbc]
  · simp [hac, hbc]

/-- One swap of the Fisher-Yates loop permutes the card list. -/
theorem swapCards_perm (l : List Card) (i j : Nat) :
    (swapCards l i j).Perm l := by
  unfold swapCards
  cases hi : l[i]? with
  | none => exact List.Perm.refl l
  | some a =>
    cases hj : l[j]? with
    | none => exact List.Perm.refl l
    | some b => exact swapSet_perm l i j a b hi hj

/-- The whole Fisher-Yates loop permutes the card list, for every RNG. -/
theorem shuffleLoop_perm (rng : Nat → Nat) :
    ∀ (i : Nat) (cards : List Card), (shuffleLoop cards rng i).Perm cards := by
  intro i
  induction i with
  | zero => intro cards; exact List.Perm.refl cards
  | succ n ih =>
    intro cards
    rw [shuffleLoop]
    exact (ih _).trans (swapCards_perm cards (n + 1) (rng (n + 1) % (n + 2)))

/-- CLAIM C8: `NewDeck` holds exactly 52 pairwise-distinct cards, one per
(suit, rank) pair; for every RNG sequence `Shuffle` is a permutation of
the deck's contents (so it preserves distinctness and size), and a
successful `DrawCard` only removes the front card, so the deck never
gains cards and distinctness is preserved. -/
theorem deck_invariants :
    NewDeck.cards.length = 52 ∧
    NewDeck.cards.Nodup ∧
    (∀ c : Card, c ∈ NewDeck.cards) ∧
    (∀ (d : Deck) (rng : Nat → Nat), ((d.Shuffle rng).cards).Perm d.cards) ∧
    (∀ (d : Deck) (rng : Nat → Nat),
      d.cards.Nodup → ((d.Shuffle rng).cards).Nodup) ∧
    (∀ (d : Deck) (c : Card) (d' : Deck),
      d.DrawCard = .ok (c, d') →
        d.cards = c :: d'.cards ∧ (d.cards.Nodup → d'.cards.Nodup)) := by
  refine ⟨by decide, by decide, ?_, ?_, ?_, ?_⟩
  · intro c
    obtain ⟨s, r⟩ := c
    cases s <;> cases r <;> decide
  · intro d rng
    exact shuffleLoop_perm rng (d.cards.length - 1) d.cards
  · intro d rng hnd
    exact ((shuffleLoop_perm rng (d.cards.length - 1) d.cards).symm).nodup hnd
  · intro d c d' hok
    have hcases := drawCard_ok_cases d c d' hok
    refine ⟨hcases, fun hnd => ?_⟩
    rw [hcases] at hnd
    exact hnd.of_cons

/-- CLAIM C8 witness: shuffling a concrete two-card deck with the all-zero
RNG keeps it duplicate-free, and drawing from it removes the front card. -/
theorem deck_invariants_witness :
    (((⟨[⟨.spades, .ace⟩, ⟨.hearts, .two⟩]⟩ : Deck).Shuffle
        (fun _ => 0)).cards).Nodup ∧
    ((⟨[⟨.spades, .ace⟩, ⟨.hearts, .two⟩]⟩ : Deck).cards
        = ⟨.spades, .ace⟩ :: (⟨[⟨.hearts, .two⟩]⟩ : Deck).cards ∧
      ((⟨[⟨.spades, .ace⟩, ⟨.hearts, .two⟩]⟩ : Deck).cards.Nodup →
        (⟨[⟨.hearts, .two⟩]⟩ : Deck).cards.Nodup)) :=
  ⟨deck_invariants.2.2.2.2.1 ⟨[⟨.spades, .ace⟩, ⟨.hearts, .two⟩]⟩
      (fun _ => 0) (by decide),
    deck_invariants.2.2.2.2.2 ⟨[⟨.spades, .ace⟩, ⟨.hearts, .two⟩]⟩
      ⟨.spades, .ace⟩ ⟨[⟨.hearts, .two⟩]⟩ rfl⟩

/-- A completed dealer loop never shrinks the dealer's hand. -/
theorem dealerLoop_cards_le :
    ∀ (l : List Card) (h h' : BlackjackHand) (d' : Deck),
      dealerLoop h ⟨l⟩ = some (h', d') → h.cards.length ≤ h'.cards.length := by
  intro l
  induction l with
  | nil =>
    intro h h' d' heq
    rw [dealerLoop] at heq
    split_ifs at heq
    all_goals simp_all
  | cons c rest ih =>
    intro h h' d' heq
    rw [dealerLoop] at heq
    split_ifs at heq with hlt
    · dsimp only at heq
      split_ifs at heq with hbust
      · simp only [Option.some.injEq, Prod.mk.injEq] at heq
        rw [← heq.1, addCard_cards]
        simp
      · have hle := ih (h.AddCard c) h' d' heq
        rw [addCard_cards] at hle
        simp at hle
        omega
    · simp only [Option.some.injEq, Prod.mk.injEq] at heq
      obtain ⟨rfl, rfl⟩ := heq
      exact le_rfl

/-- CLAIM C5: the dealer draws exactly while its value is below 17 — a
hand already at 17 or more draws nothing, a hand below 17 that finishes
the loop has drawn at least one card — and the dealer turn runs even when
the player has busted: after any player loop ending in a bust, the round
still runs the dealer loop and resolves from its result.  (`dealerLoop`
takes no player argument at all, so it cannot examine the player's hand
or bust status.) -/
theorem dealer_turn_spec :
    (∀ (h : BlackjackHand) (d : Deck),
      17 ≤ h.Value → dealerLoop h d = some (h, d)) ∧
    (∀ (h : BlackjackHand) (d : Deck) (h' : BlackjackHand) (d' : Deck),
      h.Value < 17 → dealerLoop h d = some (h', d') →
      h.cards.length < h'.cards.length) ∧
    (∀ (player dealer p : BlackjackHand) (d d5 : Deck)
      (actions : List String),
      playerLoop player d actions = some (p, d5) → 21 < p.Value →
      runRound player dealer d actions
        = (dealerLoop dealer d5).map fun dr =>
            resolveOutcome p.Value dr.1.Value) := by
  refine ⟨?_, ?_, ?_⟩
  · intro h d hge
    rw [dealerLoop.eq_def, if_neg (by omega)]
  · intro h d h' d' hlt heq
    obtain ⟨l⟩ := d
    cases l with
    | nil =>
      rw [dealerLoop, if_pos hlt] at heq
      simp at heq
    | cons c rest =>
      rw [dealerLoop, if_pos hlt] at heq
      dsimp only at heq
      split_ifs at heq with hbust
      · simp only [Option.some.injEq, Prod.mk.injEq] at heq
        rw [← heq.1, addCard_cards]
        simp
      · have hle := dealerLoop_cards_le rest (h.AddCard c) h' d' heq
        rw [addCard_cards] at hle
        simp at hle
        omega
  · intro player dealer p d d5 actions hp _hbust
    unfold runRound
    rw [hp]
    rfl

/-- CLAIM C5 witness: a dealer hand worth 17 stands immediately; a dealer
hand worth 16 that completes the loop has grown; and a concrete round in
which the player hits from 19 into a bust at 24 still runs the dealer
loop on the remaining deck. -/
theorem dealer_turn_spec_witness :
    dealerLoop ⟨[⟨.spades, .ten⟩, ⟨.hearts, .seven⟩], false⟩ ⟨[⟨.clubs, .two⟩]⟩
      = some (⟨[⟨.spades, .ten⟩, ⟨.hearts, .seven⟩], false⟩, ⟨[⟨.clubs, .two⟩]⟩) ∧
    (⟨[⟨.spades, .ten⟩, ⟨.hearts, .six⟩], false⟩ : BlackjackHand).cards.length
      < (⟨[⟨.spades, .ten⟩, ⟨.hearts, .six⟩, ⟨.clubs, .five⟩], false⟩ :
          BlackjackHand).cards.length ∧
    runRound ⟨[⟨.spades, .ten⟩, ⟨.hearts, .nine⟩], false⟩
        ⟨[⟨.diamonds, .ten⟩, ⟨.diamonds, .six⟩], false⟩
        ⟨[⟨.clubs, .five⟩, ⟨.clubs, .ten⟩]⟩ ["h"]
      = (dealerLoop ⟨[⟨.diamonds, .ten⟩, ⟨.diamonds, .six⟩], false⟩
          ⟨[⟨.clubs, .ten⟩]⟩).map fun dr =>
            resolveOutcome
              (BlackjackHand.Value
                ⟨[⟨.spades, .ten⟩, ⟨.hearts, .nine⟩, ⟨.clubs, .five⟩], false⟩)
              dr.1.Value :=
  ⟨dealer_turn_spec.1 ⟨[⟨.spades, .ten⟩, ⟨.hearts, .seven⟩], false⟩
      ⟨[⟨.clubs, .two⟩]⟩ (by decide),
    dealer_turn_spec.2.1 ⟨[⟨.spades, .ten⟩, ⟨.hearts, .six⟩], false⟩
      ⟨[⟨.clubs, .five⟩]⟩
      ⟨[⟨.spades, .ten⟩, ⟨.hearts, .six⟩, ⟨.clubs, .five⟩], false⟩ ⟨[]⟩
      (by decide)
      (by simp [dealerLoop, BlackjackHand.AddCard, BlackjackHand.Value,
        valueStep, Rank.toInt]),
    dealer_turn_spec.2.2 ⟨[⟨.spades, .ten⟩, ⟨.hearts, .nine⟩], false⟩
      ⟨[⟨.diamonds, .ten⟩, ⟨.diamonds, .six⟩], false⟩
      ⟨[⟨.spades, .ten⟩, ⟨.hearts, .nine⟩, ⟨.clubs, .five⟩], false⟩
      ⟨[⟨.clubs, .five⟩, ⟨.clubs, .ten⟩]⟩ ⟨[⟨.clubs, .ten⟩]⟩ ["h"]
      (by rfl) (by decide)⟩

end GoBlackjack
